import Mathlib

/-!
# Caesar cipher utilities: a shallow embedding

This file embeds the Caesar-cipher utility module of the repository
(`normalizeShift`, `encrypt`, `decrypt`, `bruteForce`, `getEnglishScore`,
`findBestMatch`) and proves properties of the embedded functions.

Modelling conventions:
* JavaScript strings are modelled as `List Char`.
* JavaScript numbers are modelled as `Int` where the module only ever
  computes with integers (shifts, character codes), and as exact rationals
  `ℚ` for the frequency table and scores (the module's float literals are
  read as the decimal fractions they denote).
* The JavaScript remainder operator `%` truncates toward zero on negative
  operands; it is `Int.tmod`.
* The scorer's `text.toLowerCase().match(/[a-z]/g)` is modelled as the
  composition it is: per input character, the ASCII letters among its
  Unicode default lowercase mapping, concatenated in order (see
  `lowerAsciiLetters`); this includes the non-ASCII code points U+212A and
  U+0130, whose lowercase contains an ASCII letter.
-/

/-- `normalizeShift` from the source: `((shift % 26) + 26) % 26`
with JavaScript's truncating `%`. -/
def normalizeShift (shift : Int) : Int :=
  ((shift.tmod 26) + 26).tmod 26

/-- The per-character mapping inside `encrypt`'s `.map` callback.
`char >= 'A' && char <= 'Z'` compares code units, so it is a comparison on
`Char.toNat`; `String.fromCharCode` on a value in `[65,91)` or `[97,123)`
is `Char.ofNat`. -/
def encryptChar (normalizedShift : Int) (char : Char) : Char :=
  if 65 ≤ char.toNat ∧ char.toNat ≤ 90 then
    -- Handle uppercase letters
    let charCode : Int := (char.toNat : Int) - 65
    let shiftedCode : Int := (charCode + normalizedShift).tmod 26
    Char.ofNat (shiftedCode + 65).toNat
  else if 97 ≤ char.toNat ∧ char.toNat ≤ 122 then
    -- Handle lowercase letters
    let charCode : Int := (char.toNat : Int) - 97
    let shiftedCode : Int := (charCode + normalizedShift).tmod 26
    Char.ofNat (shiftedCode + 97).toNat
  else
    -- Keep numbers, spaces, and special characters unchanged
    char

/-- `encrypt` from the source: normalize the shift once, then map every
character independently (`split`/`map`/`join`). -/
def encrypt (text : List Char) (shift : Int) : List Char :=
  let normalizedShift := normalizeShift shift
  text.map (encryptChar normalizedShift)

/-- `decrypt` from the source: encryption with the negated shift. -/
def decrypt (text : List Char) (shift : Int) : List Char :=
  encrypt text (-shift)

/-- One brute-force trial result: `{ shift, text }`. -/
structure Candidate where
  shift : Int
  text : List Char
deriving DecidableEq, Repr

/-- `bruteForce` from the source: the loop `for (let shift = 0; shift < 26;
shift++)` pushes one candidate per shift, in ascending order. -/
def bruteForce (text : List Char) : List Candidate :=
  (List.range 26).map (fun (shift : Nat) =>
    { shift := (shift : Int), text := encrypt text (shift : Int) })

/-- The `englishFreqs` table from the source, with the float literals read
as exact decimal fractions. Keys outside a–z are absent (`englishFreqs[letter]
|| 0` reads as 0), hence the default 0. -/
def englishFreqs : Char → ℚ
  | 'a' => 82/1000
  | 'b' => 15/1000
  | 'c' => 28/1000
  | 'd' => 43/1000
  | 'e' => 127/1000
  | 'f' => 22/1000
  | 'g' => 20/1000
  | 'h' => 61/1000
  | 'i' => 70/1000
  | 'j' => 15/10000
  | 'k' => 77/10000
  | 'l' => 40/1000
  | 'm' => 24/1000
  | 'n' => 67/1000
  | 'o' => 75/1000
  | 'p' => 19/1000
  | 'q' => 10/10000
  | 'r' => 60/1000
  | 's' => 63/1000
  | 't' => 91/1000
  | 'u' => 28/1000
  | 'v' => 98/10000
  | 'w' => 24/1000
  | 'x' => 15/10000
  | 'y' => 20/1000
  | 'z' => 74/10000
  | _ => 0

/-- `Math.max` on (non-NaN) numbers: the larger argument. -/
def mathMax (a b : ℚ) : ℚ :=
  if a ≤ b then b else a

/-- `Math.abs` on (non-NaN) numbers. -/
def mathAbs (q : ℚ) : ℚ :=
  if q < 0 then -q else q

/-- Whether a character matches the regex class `[a-z]`. -/
def isAsciiLowerLetter (c : Char) : Bool :=
  97 ≤ c.toNat && c.toNat ≤ 122

/-- One character's contribution to the letter subsequence the scorer
observes: the ASCII letters, in order, among the characters that
`String.prototype.toLowerCase` (Unicode default case conversion) produces
for this character.  The only code points whose lowercase contains an ASCII
letter are A–Z (simple mappings to a–z), a–z themselves (fixed), U+212A
KELVIN SIGN (simple mapping to `k`), and U+0130 LATIN CAPITAL LETTER I WITH
DOT ABOVE (full mapping `i` followed by U+0307, of which only the `i`
matches `[a-z]`); every other code point lowercases to characters outside
a–z, and the one context-sensitive rule (Greek final sigma) yields ς or σ,
both outside a–z. -/
def lowerAsciiLetters (c : Char) : List Char :=
  if 65 ≤ c.toNat ∧ c.toNat ≤ 90 then [Char.ofNat (c.toNat + 32)]
  else if 97 ≤ c.toNat ∧ c.toNat ≤ 122 then [c]
  else if c.toNat = 8490 then ['k']
  else if c.toNat = 304 then ['i']
  else []

/-- The list bound to `letters` in `getEnglishScore`:
`textLower.match(/[a-z]/g) || []` where `textLower = text.toLowerCase()`.
Lowercasing rewrites each character to a sequence of characters
independently and the match keeps the ASCII letters of the result in
order, so the composition concatenates each input character's
`lowerAsciiLetters`. -/
def scoreLetters (text : List Char) : List Char :=
  text.flatMap lowerAsciiLetters

/-- The 26 lowercase ASCII letters in alphabetical order. -/
def lettersAtoZ : List Char :=
  ['a', 'b', 'c', 'd', 'e', 'f', 'g', 'h', 'i', 'j', 'k', 'l', 'm',
   'n', 'o', 'p', 'q', 'r', 's', 't', 'u', 'v', 'w', 'x', 'y', 'z']

/-- `getEnglishScore` from the source.  The `freqs` object maps each distinct
letter occurring in `letters` to its occurrence count, so
`Object.entries(freqs)` enumerates exactly the letters of `lettersAtoZ` with
nonzero count (in first-occurrence order; the accumulated `score` is a sum of
rationals, so we may enumerate them in alphabetical order instead). -/
def getEnglishScore (text : List Char) : ℚ :=
  let letters := scoreLetters text
  if letters.length = 0 then 0
  else
    let score : ℚ :=
      ((lettersAtoZ.filter (fun letter => letters.count letter != 0)).map
        (fun letter =>
          let textFreq : ℚ := (letters.count letter : ℚ) / (letters.length : ℚ)
          mathAbs (textFreq - englishFreqs letter))).sum
    mathMax 0 (1 - score)

/-- The record returned by `findBestMatch`: `{ ...bestMatch, score }`. -/
structure BestMatch where
  shift : Int
  text : List Char
  score : ℚ
deriving DecidableEq, Repr

/-- The loop body of `findBestMatch`: replace the running best only on a
strict score improvement. -/
def bestStep (acc : Candidate × ℚ) (result : Candidate) : Candidate × ℚ :=
  let score := getEnglishScore result.text
  if acc.2 < score then (result, score) else acc

/-- `findBestMatch` from the source.  On an empty array the JavaScript code
fails (reading `.text` of `undefined`); the embedding returns `none` there.
Otherwise it seeds the best with `results[0]` and folds `bestStep` over
`results.slice(1)`. -/
def findBestMatch (results : List Candidate) : Option BestMatch :=
  match results with
  | [] => none
  | first :: rest =>
    let best := rest.foldl bestStep (first, getEnglishScore first.text)
    some { shift := best.1.shift, text := best.1.text, score := best.2 }

/-- Whether a character matches `char >= 'A' && char <= 'Z'`. -/
def isAsciiUpperLetter (c : Char) : Bool :=
  65 ≤ c.toNat && c.toNat ≤ 90

/-- Whether a character is an ASCII Latin letter (either case). -/
def isAsciiLetter (c : Char) : Bool :=
  isAsciiUpperLetter c || isAsciiLowerLetter c

/-- The total deviation read off the specification sentence: the sum over
all 26 reference letters of the absolute difference between observed
frequency (0 if the letter never appears) and reference frequency. -/
def specAllLetterDeviation (text : List Char) : ℚ :=
  (lettersAtoZ.map (fun letter =>
    mathAbs (((scoreLetters text).count letter : ℚ) / ((scoreLetters text).length : ℚ) -
      englishFreqs letter))).sum

/-- The total deviation the source actually accumulates, reindexed over all
26 reference letters: a letter that never appears in the text contributes 0
(not its reference frequency). -/
def presentLetterDeviation (text : List Char) : ℚ :=
  (lettersAtoZ.map (fun letter =>
    if (scoreLetters text).count letter ≠ 0 then
      mathAbs (((scoreLetters text).count letter : ℚ) / ((scoreLetters text).length : ℚ) -
        englishFreqs letter)
    else 0)).sum

/-! ## Helper lemmas -/

theorem neg_tmod_eq (a b : Int) : (-a).tmod b = -(a.tmod b) := by
  rw [Int.tmod_def, Int.tmod_def, Int.neg_tdiv]
  ring

theorem tmod_26_bounds (a : Int) : -26 < a.tmod 26 ∧ a.tmod 26 < 26 := by
  refine ⟨?_, Int.tmod_lt_of_pos a (by norm_num)⟩
  rcases le_or_lt 0 a with h | h
  · have := Int.tmod_nonneg (26 : Int) h
    omega
  · have h1 : (-a).tmod 26 < 26 := Int.tmod_lt_of_pos (-a) (by norm_num)
    have h2 : (-a).tmod 26 = -(a.tmod 26) := neg_tmod_eq a 26
    omega

theorem tmod_26_emod (a : Int) : a.tmod 26 % 26 = a % 26 := by
  have h : a.tmod 26 = a - 26 * (a.tdiv 26) := Int.tmod_def a 26
  omega

theorem normalizeShift_spec (s : Int) :
    0 ≤ normalizeShift s ∧ normalizeShift s < 26 ∧ normalizeShift s % 26 = s % 26 := by
  unfold normalizeShift
  have hb := tmod_26_bounds s
  have h26 : (0 : Int) ≤ s.tmod 26 + 26 := by omega
  rw [Int.tmod_eq_emod h26 (by norm_num)]
  have hc : s.tmod 26 % 26 = s % 26 := tmod_26_emod s
  refine ⟨Int.emod_nonneg _ (by norm_num), Int.emod_lt_of_pos _ (by norm_num), ?_⟩
  omega

theorem normalizeShift_eq_emod (s : Int) : normalizeShift s = s % 26 := by
  have h := normalizeShift_spec s
  omega

theorem char_toNat_ofNat (n : Nat) (h : n < 55296) : (Char.ofNat n).toNat = n := by
  have hv : n.isValidChar := Or.inl h
  simp [Char.ofNat, hv, Char.ofNatAux, Char.toNat, UInt32.toNat]

theorem char_eq_of_toNat_eq {c d : Char} (h : c.toNat = d.toNat) : c = d := by
  rw [← Char.ofNat_toNat c, ← Char.ofNat_toNat d, h]

theorem encryptChar_toNat_upper {n : Int} (hn : 0 ≤ n) {c : Char}
    (h65 : 65 ≤ c.toNat) (h90 : c.toNat ≤ 90) :
    (encryptChar n c).toNat = (c.toNat - 65 + n.toNat) % 26 + 65 := by
  unfold encryptChar
  rw [if_pos ⟨h65, h90⟩]
  dsimp only
  have harg : (0 : Int) ≤ (c.toNat : Int) - 65 + n := by omega
  rw [Int.tmod_eq_emod harg (by norm_num)]
  have e1 : 0 ≤ ((c.toNat : Int) - 65 + n) % 26 := Int.emod_nonneg _ (by norm_num)
  have e2 : ((c.toNat : Int) - 65 + n) % 26 < 26 := Int.emod_lt_of_pos _ (by norm_num)
  rw [char_toNat_ofNat _ (by omega)]
  omega

theorem encryptChar_toNat_lower {n : Int} (hn : 0 ≤ n) {c : Char}
    (h97 : 97 ≤ c.toNat) (h122 : c.toNat ≤ 122) :
    (encryptChar n c).toNat = (c.toNat - 97 + n.toNat) % 26 + 97 := by
  unfold encryptChar
  rw [if_neg (by omega), if_pos ⟨h97, h122⟩]
  dsimp only
  have harg : (0 : Int) ≤ (c.toNat : Int) - 97 + n := by omega
  rw [Int.tmod_eq_emod harg (by norm_num)]
  have e1 : 0 ≤ ((c.toNat : Int) - 97 + n) % 26 := Int.emod_nonneg _ (by norm_num)
  have e2 : ((c.toNat : Int) - 97 + n) % 26 < 26 := Int.emod_lt_of_pos _ (by norm_num)
  rw [char_toNat_ofNat _ (by omega)]
  omega

theorem encryptChar_other {n : Int} {c : Char}
    (hu : ¬(65 ≤ c.toNat ∧ c.toNat ≤ 90)) (hl : ¬(97 ≤ c.toNat ∧ c.toNat ≤ 122)) :
    encryptChar n c = c := by
  unfold encryptChar
  rw [if_neg hu, if_neg hl]

theorem encryptChar_comp {n1 n2 n3 : Int}
    (b1 : 0 ≤ n1 ∧ n1 < 26) (b2 : 0 ≤ n2 ∧ n2 < 26) (b3 : 0 ≤ n3 ∧ n3 < 26)
    (hc : (n1 + n2) % 26 = n3 % 26) (c : Char) :
    encryptChar n2 (encryptChar n1 c) = encryptChar n3 c := by
  by_cases hu : 65 ≤ c.toNat ∧ c.toNat ≤ 90
  · apply char_eq_of_toNat_eq
    have ha := encryptChar_toNat_upper b1.1 hu.1 hu.2
    have hb := encryptChar_toNat_upper b2.1 (c := encryptChar n1 c) (by omega) (by omega)
    have hd := encryptChar_toNat_upper b3.1 hu.1 hu.2
    omega
  · by_cases hl : 97 ≤ c.toNat ∧ c.toNat ≤ 122
    · apply char_eq_of_toNat_eq
      have ha := encryptChar_toNat_lower b1.1 hl.1 hl.2
      have hb := encryptChar_toNat_lower b2.1 (c := encryptChar n1 c) (by omega) (by omega)
      have hd := encryptChar_toNat_lower b3.1 hl.1 hl.2
      omega
    · rw [encryptChar_other hu hl, encryptChar_other hu hl, encryptChar_other hu hl]

theorem encryptChar_zero (c : Char) : encryptChar 0 c = c := by
  by_cases hu : 65 ≤ c.toNat ∧ c.toNat ≤ 90
  · apply char_eq_of_toNat_eq
    have ha := encryptChar_toNat_upper (le_refl 0) hu.1 hu.2
    omega
  · by_cases hl : 97 ≤ c.toNat ∧ c.toNat ≤ 122
    · apply char_eq_of_toNat_eq
      have ha := encryptChar_toNat_lower (le_refl 0) hl.1 hl.2
      omega
    · exact encryptChar_other hu hl

theorem encrypt_encrypt (t : List Char) (a b : Int) :
    encrypt (encrypt t a) b = encrypt t (a + b) := by
  unfold encrypt
  rw [List.map_map]
  apply List.map_congr_left
  intro c _
  have ha := normalizeShift_spec a
  have hb := normalizeShift_spec b
  have hab := normalizeShift_spec (a + b)
  have hea := normalizeShift_eq_emod a
  have heb := normalizeShift_eq_emod b
  have heab := normalizeShift_eq_emod (a + b)
  exact encryptChar_comp ⟨ha.1, ha.2.1⟩ ⟨hb.1, hb.2.1⟩ ⟨hab.1, hab.2.1⟩ (by omega) c

theorem encrypt_zero (t : List Char) : encrypt t 0 = t := by
  unfold encrypt
  have h : normalizeShift 0 = 0 := by decide
  rw [h]
  dsimp only
  have hfun : encryptChar 0 = id := funext encryptChar_zero
  rw [hfun, List.map_id]

theorem isAsciiUpperLetter_iff (c : Char) :
    isAsciiUpperLetter c = true ↔ 65 ≤ c.toNat ∧ c.toNat ≤ 90 := by
  simp [isAsciiUpperLetter]

theorem isAsciiLowerLetter_iff (c : Char) :
    isAsciiLowerLetter c = true ↔ 97 ≤ c.toNat ∧ c.toNat ≤ 122 := by
  simp [isAsciiLowerLetter]

/-! ## Claim theorems: shift normalization and the codec -/

/-- C6: `normalizeShift` is total over ℤ, computed as `((s % 26) + 26) % 26`
with truncating `%`; its value lies in `[0, 26)` and is congruent to the
input modulo 26; concretely `normalizeShift (-1) = 25`,
`normalizeShift 27 = 1`, `normalizeShift 0 = 0`. -/
theorem normalizeShift_total_correct (s : Int) :
    normalizeShift s = ((s.tmod 26) + 26).tmod 26 ∧
    0 ≤ normalizeShift s ∧ normalizeShift s < 26 ∧
    normalizeShift s ≡ s [ZMOD 26] ∧
    normalizeShift (-1) = 25 ∧ normalizeShift 27 = 1 ∧ normalizeShift 0 = 0 := by
  have h := normalizeShift_spec s
  exact ⟨rfl, h.1, h.2.1, h.2.2, by decide, by decide, by decide⟩

/-- C2: decryption is encryption with the negated shift, definitionally, and
the round trip `decrypt (encrypt t k) k = t` holds for every text and every
integer shift. -/
theorem decrypt_encrypt_roundtrip (t : List Char) (k : Int) :
    decrypt (encrypt t k) k = t ∧ decrypt t k = encrypt t (-k) := by
  refine ⟨?_, rfl⟩
  unfold decrypt
  rw [encrypt_encrypt, (by ring : k + -k = 0), encrypt_zero]

/-- C10: shifts compose additively — encrypting twice with shifts `a` and
`b` equals encrypting once with `a + b` — and the zero shift is the
identity. -/
theorem encrypt_shift_additive (t : List Char) (a b : Int) :
    encrypt (encrypt t a) b = encrypt t (a + b) ∧ encrypt t 0 = t :=
  ⟨encrypt_encrypt t a b, encrypt_zero t⟩

/-- C4: `bruteForce` always returns exactly 26 candidates; the candidate at
index `i` has shift `i` (so shifts are `0,…,25` in ascending order) and text
`encrypt t i`. -/
theorem bruteForce_all_shifts (t : List Char) :
    (bruteForce t).length = 26 ∧
    ∀ i, i < 26 → (bruteForce t)[i]? = some ⟨(i : Int), encrypt t (i : Int)⟩ := by
  constructor
  · unfold bruteForce
    rw [List.length_map, List.length_range]
  · intro i hi
    unfold bruteForce
    rw [List.getElem?_map, List.getElem?_range hi]
    rfl

theorem bruteForce_all_shifts_witness :
    3 < 26 ∧ (bruteForce ['x'])[3]? = some ⟨(3 : Int), encrypt ['x'] (3 : Int)⟩ :=
  ⟨by decide, (bruteForce_all_shifts ['x']).2 3 (by decide)⟩

/-- C5: `encrypt` preserves length, fixes every non-letter character in
place, and rotates each letter within its own case by `normalizeShift k`
alphabet positions, each position processed independently. -/
theorem encrypt_pointwise (t : List Char) (k : Int) :
    (encrypt t k).length = t.length ∧
    ∀ (i : Nat) (c : Char), t[i]? = some c →
      ∃ d, (encrypt t k)[i]? = some d ∧
        (isAsciiLetter c = false → d = c) ∧
        (isAsciiUpperLetter c = true →
          65 ≤ d.toNat ∧ d.toNat ≤ 90 ∧
          (d.toNat : Int) - 65 = ((c.toNat : Int) - 65 + normalizeShift k) % 26) ∧
        (isAsciiLowerLetter c = true →
          97 ≤ d.toNat ∧ d.toNat ≤ 122 ∧
          (d.toNat : Int) - 97 = ((c.toNat : Int) - 97 + normalizeShift k) % 26) := by
  have hn := normalizeShift_spec k
  constructor
  · simp [encrypt]
  · intro i c hc
    refine ⟨encryptChar (normalizeShift k) c, ?_, ?_, ?_, ?_⟩
    · simp [encrypt, List.getElem?_map, hc]
    · intro hnl
      apply encryptChar_other
      · intro h
        simp [isAsciiLetter, isAsciiUpperLetter, isAsciiLowerLetter] at hnl
        omega
      · intro h
        simp [isAsciiLetter, isAsciiUpperLetter, isAsciiLowerLetter] at hnl
        omega
    · intro hup
      rw [isAsciiUpperLetter_iff] at hup
      have ha := encryptChar_toNat_upper hn.1 hup.1 hup.2
      have he1 : 0 ≤ ((c.toNat : Int) - 65 + normalizeShift k) % 26 :=
        Int.emod_nonneg _ (by norm_num)
      have he2 : ((c.toNat : Int) - 65 + normalizeShift k) % 26 < 26 :=
        Int.emod_lt_of_pos _ (by norm_num)
      refine ⟨by omega, by omega, by omega⟩
    · intro hlo
      rw [isAsciiLowerLetter_iff] at hlo
      have ha := encryptChar_toNat_lower hn.1 hlo.1 hlo.2
      have he1 : 0 ≤ ((c.toNat : Int) - 97 + normalizeShift k) % 26 :=
        Int.emod_nonneg _ (by norm_num)
      have he2 : ((c.toNat : Int) - 97 + normalizeShift k) % 26 < 26 :=
        Int.emod_lt_of_pos _ (by norm_num)
      refine ⟨by omega, by omega, by omega⟩

theorem encrypt_pointwise_witness :
    (encrypt ['A', 'z', '!'] 3).length = (['A', 'z', '!'] : List Char).length ∧
    (∃ d, (encrypt ['A', 'z', '!'] 3)[0]? = some d ∧
      (isAsciiLetter 'A' = false → d = 'A') ∧
      (isAsciiUpperLetter 'A' = true →
        65 ≤ d.toNat ∧ d.toNat ≤ 90 ∧
        (d.toNat : Int) - 65 = (('A'.toNat : Int) - 65 + normalizeShift 3) % 26) ∧
      (isAsciiLowerLetter 'A' = true →
        97 ≤ d.toNat ∧ d.toNat ≤ 122 ∧
        (d.toNat : Int) - 97 = (('A'.toNat : Int) - 97 + normalizeShift 3) % 26)) :=
  ⟨(encrypt_pointwise ['A', 'z', '!'] 3).1,
   (encrypt_pointwise ['A', 'z', '!'] 3).2 0 'A' (by decide)⟩

/-- C8: `findBestMatch` fails exactly on the empty candidate list, and on
every non-empty list it returns a result. -/
theorem findBestMatch_none_iff_empty (results : List Candidate) :
    (findBestMatch results = none ↔ results = []) ∧
    (results ≠ [] → (findBestMatch results).isSome = true) := by
  cases results <;> simp [findBestMatch]

theorem scoreLetters_eq_nil_iff (t : List Char) :
    scoreLetters t = [] ↔ ∀ c ∈ t, lowerAsciiLetters c = [] := by
  unfold scoreLetters
  exact List.flatMap_eq_nil_iff

theorem lowerAsciiLetters_ne_nil {c : Char} (h : isAsciiLetter c = true) :
    lowerAsciiLetters c ≠ [] := by
  have h2 : (65 ≤ c.toNat ∧ c.toNat ≤ 90) ∨ (97 ≤ c.toNat ∧ c.toNat ≤ 122) := by
    rcases Bool.or_eq_true _ _ |>.mp h with h2 | h2
    · exact Or.inl ((isAsciiUpperLetter_iff c).mp h2)
    · exact Or.inr ((isAsciiLowerLetter_iff c).mp h2)
  unfold lowerAsciiLetters
  rcases h2 with h2 | h2
  · rw [if_pos h2]
    simp
  · rw [if_neg (by omega), if_pos h2]
    simp

theorem mathAbs_nonneg (q : ℚ) : 0 ≤ mathAbs q := by
  unfold mathAbs
  split <;> linarith

theorem mathMax_zero_nonneg (x : ℚ) : 0 ≤ mathMax 0 x := by
  unfold mathMax
  split <;> linarith

theorem mathMax_zero_le_one {x : ℚ} (h : x ≤ 1) : mathMax 0 x ≤ 1 := by
  unfold mathMax
  split <;> linarith

theorem scoreDeviation_nonneg (letters : List Char) :
    0 ≤ ((lettersAtoZ.filter (fun letter => letters.count letter != 0)).map
      (fun letter =>
        mathAbs (((letters.count letter : ℚ) / (letters.length : ℚ)) -
          englishFreqs letter))).sum := by
  apply List.sum_nonneg
  intro x hx
  rcases List.mem_map.mp hx with ⟨c, _, rfl⟩
  exact mathAbs_nonneg _

theorem sum_map_filter_eq (l : List Char) (p : Char → Bool) (f : Char → ℚ) :
    ((l.filter p).map f).sum = (l.map (fun c => if p c = true then f c else 0)).sum := by
  induction l with
  | nil => simp
  | cons c l ih =>
    by_cases h : p c = true
    · simp [List.filter_cons, h, ih]
    · simp [List.filter_cons, h, ih]

/-! ## Claim theorems: the scorer -/

/-- C7 (amended): the English score is always in `[0, 1]`; it is exactly 0
whenever no character of the text lowercases to an ASCII letter — in
particular for the empty text and for digits/punctuation-only text. -/
theorem getEnglishScore_bounds (t : List Char) :
    0 ≤ getEnglishScore t ∧ getEnglishScore t ≤ 1 ∧
    ((∀ c ∈ t, lowerAsciiLetters c = []) → getEnglishScore t = 0) := by
  by_cases h : (scoreLetters t).length = 0
  · simp [getEnglishScore, h]
  · have hD := scoreDeviation_nonneg (scoreLetters t)
    refine ⟨?_, ?_, ?_⟩
    · simp only [getEnglishScore, if_neg h]
      exact mathMax_zero_nonneg _
    · simp only [getEnglishScore, if_neg h]
      exact mathMax_zero_le_one (by linarith)
    · intro hfree
      exact absurd (List.length_eq_zero.mpr ((scoreLetters_eq_nil_iff t).mpr hfree)) h

theorem getEnglishScore_bounds_witness :
    (∀ c ∈ ("1234!@#".data : List Char), lowerAsciiLetters c = []) ∧
    0 ≤ getEnglishScore "1234!@#".data ∧ getEnglishScore "1234!@#".data ≤ 1 ∧
    getEnglishScore "1234!@#".data = 0 :=
  ⟨by decide,
   (getEnglishScore_bounds "1234!@#".data).1,
   (getEnglishScore_bounds "1234!@#".data).2.1,
   (getEnglishScore_bounds "1234!@#".data).2.2 (by decide)⟩

section

attribute [local semireducible] Rat.add Rat.mul Rat.inv Rat.sub

set_option maxRecDepth 4000

/-- C1 (counterexample): on the one-letter text `"a"` the score computed by
the source differs from `max 0 (1 - D)` with `D` summed over all 26
reference letters — the source's sum skips letters that never occur, so
absent letters do not contribute their reference frequency. -/
theorem getEnglishScore_single_a_ne_spec :
    getEnglishScore ['a'] ≠ mathMax 0 (1 - specAllLetterDeviation ['a']) := by
  decide

/-- C7 (counterexample): the text consisting of the single character U+212A
KELVIN SIGN contains no ASCII letter, yet `toLowerCase` maps it to `k`, so
the scorer sees one letter and returns `77/10000`, not 0. -/
theorem getEnglishScore_kelvin_nonzero :
    (∀ c ∈ [Char.ofNat 8490], isAsciiLetter c = false) ∧
    getEnglishScore [Char.ofNat 8490] ≠ 0 :=
  ⟨by decide, by decide⟩

end

/-- C1 (amended): for every text with at least one ASCII letter, the score
is `max 0 (1 - D)` where `D` sums, over the 26 reference letters, the
absolute difference between observed and reference frequency for the
letters that occur in the text, and 0 (not the reference frequency) for the
letters that do not occur. -/
theorem getEnglishScore_eq_presentDeviation (t : List Char)
    (h : ∃ c ∈ t, isAsciiLetter c = true) :
    getEnglishScore t = mathMax 0 (1 - presentLetterDeviation t) := by
  have hne : (scoreLetters t).length ≠ 0 := by
    intro h0
    rcases h with ⟨c, hc, hlet⟩
    exact lowerAsciiLetters_ne_nil hlet
      ((scoreLetters_eq_nil_iff t).mp (List.length_eq_zero.mp h0) c hc)
  simp only [getEnglishScore, if_neg hne]
  congr 1
  congr 1
  unfold presentLetterDeviation
  rw [sum_map_filter_eq]
  apply congrArg
  apply List.map_congr_left
  intro letter _
  by_cases hc : (scoreLetters t).count letter = 0
  · simp [hc]
  · simp [hc]

theorem getEnglishScore_eq_presentDeviation_witness :
    (∃ c ∈ (['h', 'i'] : List Char), isAsciiLetter c = true) ∧
    getEnglishScore ['h', 'i'] = mathMax 0 (1 - presentLetterDeviation ['h', 'i']) :=
  ⟨by decide, getEnglishScore_eq_presentDeviation ['h', 'i'] (by decide)⟩

theorem foldl_bestStep_spec (l : List Candidate) (acc : Candidate × ℚ) :
    (l.foldl bestStep acc = acc ∧ ∀ c ∈ l, getEnglishScore c.text ≤ acc.2) ∨
    (∃ i, ∃ hi : i < l.length,
      l.foldl bestStep acc =
        (l.get ⟨i, hi⟩, getEnglishScore (l.get ⟨i, hi⟩).text) ∧
      acc.2 < getEnglishScore (l.get ⟨i, hi⟩).text ∧
      (∀ c ∈ l, getEnglishScore c.text ≤ getEnglishScore (l.get ⟨i, hi⟩).text) ∧
      (∀ j, ∀ hj : j < i, getEnglishScore (l.get ⟨j, hj.trans hi⟩).text <
        getEnglishScore (l.get ⟨i, hi⟩).text)) := by
  induction l generalizing acc with
  | nil =>
    left
    exact ⟨rfl, by simp⟩
  | cons d l ih =>
    rw [List.foldl_cons]
    by_cases hda : acc.2 < getEnglishScore d.text
    · have hstep : bestStep acc d = (d, getEnglishScore d.text) := by
        unfold bestStep
        rw [if_pos hda]
      rw [hstep]
      rcases ih (d, getEnglishScore d.text) with ⟨heq, hall⟩ | ⟨i, hi, heq, hlt, hall, hearly⟩
      · right
        refine ⟨0, by simp, ?_, by simpa using hda, ?_, ?_⟩
        · simpa using heq
        · intro c hc
          rcases List.mem_cons.mp hc with rfl | hc
          · simp
          · simpa using hall c hc
        · intro j hj
          omega
      · right
        refine ⟨i + 1, by simpa using Nat.succ_lt_succ hi, ?_, ?_, ?_, ?_⟩
        · simpa using heq
        · simp only [List.get_cons_succ]
          calc acc.2 < getEnglishScore d.text := hda
            _ < _ := by simpa using hlt
        · intro c hc
          simp only [List.get_cons_succ]
          rcases List.mem_cons.mp hc with rfl | hc
          · exact le_of_lt (by simpa using hlt)
          · exact hall c hc
        · intro j hj
          cases j with
          | zero =>
            simp only [List.get_cons_succ, List.get_cons_zero]
            simpa using hlt
          | succ j =>
            simp only [List.get_cons_succ]
            exact hearly j (by omega)
    · have hstep : bestStep acc d = acc := by
        unfold bestStep
        rw [if_neg hda]
      rw [hstep]
      push_neg at hda
      rcases ih acc with ⟨heq, hall⟩ | ⟨i, hi, heq, hlt, hall, hearly⟩
      · left
        refine ⟨heq, ?_⟩
        intro c hc
        rcases List.mem_cons.mp hc with rfl | hc
        · exact hda
        · exact hall c hc
      · right
        refine ⟨i + 1, by simpa using Nat.succ_lt_succ hi, ?_, ?_, ?_, ?_⟩
        · simpa using heq
        · simpa using hlt
        · intro c hc
          simp only [List.get_cons_succ]
          rcases List.mem_cons.mp hc with rfl | hc
          · exact le_trans hda (le_of_lt hlt)
          · exact hall c hc
        · intro j hj
          cases j with
          | zero =>
            simp only [List.get_cons_succ, List.get_cons_zero]
            exact lt_of_le_of_lt hda hlt
          | succ j =>
            simp only [List.get_cons_succ]
            exact hearly j (by omega)

/-- C3: for every non-empty candidate list, `findBestMatch` returns a
candidate whose score is a global maximum, taken at the earliest index
achieving it: every strictly earlier candidate scores strictly less (a
candidate replaces the running best only on strict improvement). -/
theorem findBestMatch_global_max (results : List Candidate) (h : results ≠ []) :
    ∃ b, findBestMatch results = some b ∧
      (∀ c ∈ results, getEnglishScore c.text ≤ b.score) ∧
      ∃ i, ∃ hi : i < results.length,
        (results.get ⟨i, hi⟩).shift = b.shift ∧
        (results.get ⟨i, hi⟩).text = b.text ∧
        getEnglishScore (results.get ⟨i, hi⟩).text = b.score ∧
        ∀ j, ∀ hj : j < i, getEnglishScore (results.get ⟨j, hj.trans hi⟩).text < b.score := by
  match results with
  | [] => exact absurd rfl h
  | first :: rest =>
    rcases foldl_bestStep_spec rest (first, getEnglishScore first.text) with
      ⟨heq, hall⟩ | ⟨i, hi, heq, hlt, hall, hearly⟩
    · refine ⟨⟨first.shift, first.text, getEnglishScore first.text⟩, ?_, ?_, 0, by simp,
        by simp, by simp, by simp, ?_⟩
      · show some _ = some _
        rw [heq]
      · intro c hc
        rcases List.mem_cons.mp hc with rfl | hc
        · simp
        · simpa using hall c hc
      · intro j hj
        omega
    · refine ⟨⟨(rest.get ⟨i, hi⟩).shift, (rest.get ⟨i, hi⟩).text,
        getEnglishScore (rest.get ⟨i, hi⟩).text⟩, ?_, ?_,
        i + 1, by simpa using Nat.succ_lt_succ hi, by simp, by simp, by simp, ?_⟩
      · show some _ = some _
        rw [heq]
      · intro c hc
        rcases List.mem_cons.mp hc with rfl | hc
        · exact le_of_lt (by simpa using hlt)
        · simpa using hall c hc
      · intro j hj
        cases j with
        | zero =>
          simp only [List.get_cons_succ, List.get_cons_zero]
          simpa using hlt
        | succ j =>
          simp only [List.get_cons_succ]
          exact hearly j (by omega)

theorem findBestMatch_global_max_witness :
    ((([⟨0, ['e']⟩, ⟨1, ['q']⟩] : List Candidate)) ≠ []) ∧
    (∃ b, findBestMatch [(⟨0, ['e']⟩ : Candidate), ⟨1, ['q']⟩] = some b ∧
      (∀ c ∈ [(⟨0, ['e']⟩ : Candidate), ⟨1, ['q']⟩], getEnglishScore c.text ≤ b.score) ∧
      ∃ i, ∃ hi : i < ([(⟨0, ['e']⟩ : Candidate), ⟨1, ['q']⟩] : List Candidate).length,
        (([(⟨0, ['e']⟩ : Candidate), ⟨1, ['q']⟩] : List Candidate).get ⟨i, hi⟩).shift = b.shift ∧
        (([(⟨0, ['e']⟩ : Candidate), ⟨1, ['q']⟩] : List Candidate).get ⟨i, hi⟩).text = b.text ∧
        getEnglishScore (([(⟨0, ['e']⟩ : Candidate), ⟨1, ['q']⟩] : List Candidate).get ⟨i, hi⟩).text = b.score ∧
        ∀ j, ∀ hj : j < i,
          getEnglishScore (([(⟨0, ['e']⟩ : Candidate), ⟨1, ['q']⟩] : List Candidate).get
            ⟨j, hj.trans hi⟩).text < b.score) :=
  ⟨by decide, findBestMatch_global_max [⟨0, ['e']⟩, ⟨1, ['q']⟩] (by decide)⟩

theorem findBestMatch_none_iff_empty_witness :
    ([(⟨0, []⟩ : Candidate)] ≠ ([] : List Candidate)) ∧
    (findBestMatch [(⟨0, []⟩ : Candidate)]).isSome = true :=
  ⟨by decide, (findBestMatch_none_iff_empty [(⟨0, []⟩ : Candidate)]).2 (by decide)⟩

section

attribute [local semireducible] Rat.add Rat.mul Rat.inv Rat.sub

set_option maxRecDepth 8000

/-- C9 (counterexample): `findBestMatch` over the brute-force candidates of
`"Khoor, Zruog!"` does not return the shift-23 candidate
`"Hello, World!"`. -/
theorem findBestMatch_khoor_not_shift23 :
    (findBestMatch (bruteForce "Khoor, Zruog!".data)).map BestMatch.shift ≠ some 23 := by
  decide

/-- C9 (amended): the brute-force candidates of `"Khoor, Zruog!"` do contain
the shift-23 candidate `"Hello, World!"` (score `47/125`), but
`findBestMatch` returns the shift-20 candidate `"Ebiil, Tloia!"`, whose
score `223/500` is strictly larger under the source's scorer (which ignores
the reference frequencies of absent letters). -/
theorem findBestMatch_khoor_returns_shift20 :
    (⟨23, "Hello, World!".data⟩ : Candidate) ∈ bruteForce "Khoor, Zruog!".data ∧
    findBestMatch (bruteForce "Khoor, Zruog!".data) =
      some ⟨20, "Ebiil, Tloia!".data, 223/500⟩ ∧
    getEnglishScore "Hello, World!".data = 47/125 :=
  ⟨by decide, by decide, by decide⟩

end
